import Mathlib

/-
Formal model of the Day 5 almanac range remapper (seeds.py): parsing of the
almanac text, the forward and reverse interval translators, and the
minimisation scan over candidate locations. Machine integers of the source
are Python arbitrary-precision integers, so values are modelled by Int and
parsed digit runs by Nat. Fallible code is modelled in Except; the unbounded
while loop of the reverse scan is modelled with an explicit fuel parameter.
-/

/-- One parsed translation rule, stored as the limit tuple of the source:
(min source, max source, min destination, max destination). -/
structure MapLimits where
  srcMin : Int
  srcMax : Int
  destMin : Int
  destMax : Int
deriving DecidableEq, Repr

/-- Error outcomes of the Python code: the ValueError raised when a map name
is absent, the ValueError raised when a rule line does not hold exactly three
integers, and the IndexError raised by out-of-range list indexing. -/
inductive BErr where
  | notFound
  | malformed
  | indexError
deriving DecidableEq, Repr

/-- Maximal digit runs of a character list, each read as a decimal number:
the model of re.finditer with pattern [0-9]+ followed by int conversion.
The accumulator holds the value of the digit run currently being read. -/
def extractInts : List Char → Option Nat → List Nat
  | [], none => []
  | [], some n => [n]
  | c :: cs, acc =>
    if c.isDigit then
      extractInts cs (some ((acc.getD 0) * 10 + (c.toNat - 48)))
    else
      match acc with
      | some n => n :: extractInts cs none
      | none => extractInts cs none

/-- Model of get_seeds: all numbers appearing on a line, in order. -/
def get_seeds (line : String) : List Nat :=
  extractInts line.data none

/-- Model of Python list.index returning the first matching index, as an
Option instead of raising ValueError. -/
def indexOfLine (name : String) : List String → Option Nat
  | [] => none
  | l :: rest =>
    if l = name then some 0
    else (indexOfLine name rest).map (· + 1)

/-- The body of the while loop of build_map: consume lines until a blank line
(return the rules gathered so far) or the end of input (the [] case, reached
only after at least one line was consumed); a line whose digit runs are not
exactly three raises the malformed-rule error. -/
def parseRules : List String → Except BErr (List MapLimits)
  | [] => .ok []
  | l :: rest =>
    if l = "" then .ok []
    else
      match extractInts l.data none with
      | [d, s, n] =>
        match parseRules rest with
        | .ok ms =>
          .ok (⟨(s : Int), (s : Int) + (n : Int) - 1,
                (d : Int), (d : Int) + (n : Int) - 1⟩ :: ms)
        | .error e => .error e
      | _ => .error .malformed

/-- Model of build_map: locate the header line, then run the rule loop on the
lines after it. When the header is the last line, the first loop iteration
indexes one past the end of the list, which raises IndexError. -/
def build_map (lines : List String) (name : String) : Except BErr (List MapLimits) :=
  match indexOfLine name lines with
  | none => .error .notFound
  | some i =>
    match lines.drop (i + 1) with
    | [] => .error .indexError
    | l :: rest => parseRules (l :: rest)

/-- The hardcoded table names of seeds.py, in the order they are listed in
both solver functions. -/
def map_names : List String :=
  ["seed-to-soil map:", "soil-to-fertilizer map:", "fertilizer-to-water map:",
   "water-to-light map:", "light-to-temperature map:",
   "temperature-to-humidity map:", "humidity-to-location map:"]

/-- Effectful map over a list in Except, stopping at the first error: the
model of a Python for loop whose body may raise. -/
def mapE (f : α → Except BErr β) : List α → Except BErr (List β)
  | [] => .ok []
  | a :: as =>
    match f a with
    | .error e => .error e
    | .ok b =>
      match mapE f as with
      | .error e => .error e
      | .ok bs => .ok (b :: bs)

/-- The guard of the forward inner loop: the value lies between the source
limits, both inclusive. -/
def srcContains (m : MapLimits) (v : Int) : Bool :=
  decide (m.srcMin ≤ v) && decide (v ≤ m.srcMax)

/-- The guard of the reverse inner loop: the value lies between the
destination limits, both inclusive. -/
def destContains (m : MapLimits) (v : Int) : Bool :=
  decide (m.destMin ≤ v) && decide (v ≤ m.destMax)

/-- The inner loop of get_seed_location_lookup over one table: take the first
rule whose source range holds the value and shift by the rule offset, else
pass the value through unchanged. -/
def translate_value (T : List MapLimits) (v : Int) : Int :=
  match T.find? (fun m => srcContains m v) with
  | some m => m.destMin + (v - m.srcMin)
  | none => v

/-- The inner loop of reverse_map_to_min_location over one table: take the
first rule whose destination range holds the value and shift back by the rule
offset, else pass the value through unchanged. -/
def reverse_translate (T : List MapLimits) (v : Int) : Int :=
  match T.find? (fun m => destContains m v) with
  | some m => m.srcMin + (v - m.destMin)
  | none => v

/-- The maps dictionary of get_seed_location_lookup: one table per hardcoded
name, built in that order, with the first build failure raised. -/
def build_maps (lines : List String) : Except BErr (List (List MapLimits)) :=
  mapE (build_map lines) map_names

/-- The per-seed loop of get_seed_location_lookup: thread the value through
the tables left to right. -/
def forward_pipeline (ms : List (List MapLimits)) (v : Int) : Int :=
  ms.foldl (fun a T => translate_value T a) v

/-- Model of get_seed_location_lookup: parse the seed numbers of the first
line, build all tables in the hardcoded order, then record the terminal value
of every seed. An empty input raises IndexError at the first-line access. -/
def get_seed_location_lookup (lines : List String) : Except BErr (List (Nat × Int)) :=
  match lines with
  | [] => .error .indexError
  | l0 :: _ =>
    match build_maps lines with
    | .error e => .error e
    | .ok ms => .ok ((get_seeds l0).map (fun s => (s, forward_pipeline ms (Int.ofNat s))))

/-- The pairing loop of get_seed_range: consume the numbers two at a time,
turning each (start, length) pair into an inclusive interval; a trailing
unpaired number makes the loop index one past the end, raising IndexError. -/
def pairUp : List Nat → Except BErr (List (Int × Int))
  | [] => .ok []
  | [_] => .error .indexError
  | a :: b :: rest =>
    match pairUp rest with
    | .ok t => .ok (((a : Int), (a : Int) + (b : Int) - 1) :: t)
    | .error e => .error e

/-- Model of get_seed_range. -/
def get_seed_range (line : String) : Except BErr (List (Int × Int)) :=
  pairUp (get_seeds line)

/-- The maps dictionary of reverse_map_to_min_location: the hardcoded names
are reversed before the tables are built, so the dictionary holds and
iterates the tables in reversed hardcoded order. -/
def reverse_build (lines : List String) : Except BErr (List (List MapLimits)) :=
  mapE (build_map lines) map_names.reverse

/-- The per-candidate loop of reverse_map_to_min_location: thread the value
through the given tables left to right (the tables are already reversed). -/
def reverse_pipeline (ms : List (List MapLimits)) (v : Int) : Int :=
  ms.foldl (fun a T => reverse_translate T a) v

/-- One iteration test of the reverse scan: the reverse image of the
candidate location lies inside some seed range, both bounds inclusive. -/
def is_hit (sr : List (Int × Int)) (ms : List (List MapLimits)) (loc : Nat) : Bool :=
  let p := reverse_pipeline ms (Int.ofNat loc)
  sr.any (fun r => decide (r.1 ≤ p) && decide (p ≤ r.2))

/-- The setup phase of reverse_map_to_min_location, in its evaluation order:
first-line access, seed range parsing, then table building in reversed name
order. -/
def reverse_setup (lines : List String) :
    Except BErr (List (Int × Int) × List (List MapLimits)) :=
  match lines with
  | [] => .error .indexError
  | l0 :: _ =>
    match get_seed_range l0 with
    | .error e => .error e
    | .ok sr =>
      match reverse_build lines with
      | .error e => .error e
      | .ok ms => .ok (sr, ms)

/-- The unbounded while loop of the reverse scan, with explicit fuel: test
candidates loc, loc+1, ... and return the first hit; none models running out
of fuel, which the unbounded source loop never does. -/
def scanLoop (p : Nat → Bool) : Nat → Nat → Option Nat
  | 0, _ => none
  | fuel + 1, loc => if p loc then some loc else scanLoop p fuel (loc + 1)

/-- Model of reverse_map_to_min_location: after setup, scan candidate
locations upward from zero. -/
def reverse_map_to_min_location (lines : List String) (fuel : Nat) :
    Except BErr (Option Nat) :=
  match reverse_setup lines with
  | .error e => .error e
  | .ok (sr, ms) => .ok (scanLoop (is_hit sr ms) fuel 0)

/-- Modelled from the spec: the table headers in the order they appear in the
almanac text, for comparison with the hardcoded order the code uses. -/
def text_order_names (lines : List String) : List String :=
  lines.filter (fun l => map_names.contains l)

/-- Modelled from the spec: the forward pipeline applied over the tables in
the order their headers appear in the almanac text, as the spec sentence on
pipeline order prescribes. -/
def spec_text_order_location (lines : List String) (v : Int) : Except BErr Int :=
  match mapE (build_map lines) (text_order_names lines) with
  | .error e => .error e
  | .ok ms => .ok (forward_pipeline ms v)

/-- The lines scanned by the rule loop of build_map when the header sits at
index i: the lines after the header up to the first blank line or the end of
input. -/
def ruleRegion (lines : List String) (i : Nat) : List String :=
  (lines.drop (i + 1)).takeWhile (fun l => !(l == ""))

/-- The rule a single parsed line yields: source start, inclusive source end,
destination start, inclusive destination end. Lines without exactly three
numbers yield a junk rule; the builder rejects them instead. -/
def mkRule (ns : List Nat) : MapLimits :=
  match ns with
  | [d, s, n] =>
    ⟨(s : Int), (s : Int) + (n : Int) - 1, (d : Int), (d : Int) + (n : Int) - 1⟩
  | _ => ⟨0, 0, 0, 0⟩

/-- The rules of a list of well-formed lines, one per line, in line order. -/
def mkRuleList (L : List String) : List MapLimits :=
  L.map (fun l => mkRule (extractInts l.data none))

/-- Total pairing of a number list into inclusive intervals, dropping a
trailing unpaired number: the intended value of get_seed_range on an
even-length list. -/
def pairRanges : List Nat → List (Int × Int)
  | a :: b :: rest => ((a : Int), (a : Int) + (b : Int) - 1) :: pairRanges rest
  | _ => []

/-- A table whose rules move equally long source and destination ranges, as
every table built from (destination, source, length) triples does. -/
def WellFormedTable (T : List MapLimits) : Prop :=
  ∀ m ∈ T, m.destMax - m.destMin = m.srcMax - m.srcMin

/-- Pairwise disjoint destination ranges: no value lies in the destination
ranges of two distinct rules of the table. -/
def DisjointDest (T : List MapLimits) : Prop :=
  T.Pairwise (fun a b => ∀ x : Int, ¬(destContains a x = true ∧ destContains b x = true))

/- Concrete inputs used by witnesses and counterexamples. -/

/-- A well-formed table whose two rules send distinct source ranges onto the
same destination range. -/
def exOverlapT : List MapLimits := [⟨100, 100, 50, 50⟩, ⟨0, 0, 50, 50⟩]

/-- A one-rule table, trivially disjoint in destinations. -/
def exGoodT : List MapLimits := [⟨0, 4, 10, 14⟩]

/-- An almanac whose tables appear in the text in non-hardcoded order:
soil-to-fertilizer is declared before seed-to-soil. -/
def exLines5 : List String :=
  ["seeds: 0", "",
   "soil-to-fertilizer map:", "200 100 1", "",
   "seed-to-soil map:", "100 0 1", "",
   "fertilizer-to-water map:", "",
   "water-to-light map:", "",
   "light-to-temperature map:", "",
   "temperature-to-humidity map:", "",
   "humidity-to-location map:", ""]

/-- An almanac with one seed range covering exactly the location 0 and seven
empty tables, so the reverse scan hits at candidate 0. -/
def exLinesR : List String :=
  ["seeds: 0 1", "",
   "seed-to-soil map:", "",
   "soil-to-fertilizer map:", "",
   "fertilizer-to-water map:", "",
   "water-to-light map:", "",
   "light-to-temperature map:", "",
   "temperature-to-humidity map:", "",
   "humidity-to-location map:", ""]

/-- The seven empty tables reverse_setup builds on exLinesR. -/
def exMsR : List (List MapLimits) := [[], [], [], [], [], [], []]

/- Helper lemmas. -/

/-- find? returns the head of the first satisfying suffix. -/
theorem find?_eq_some_of_split (p : α → Bool) (pre : List α) (m : α) (suf : List α)
    (hpre : ∀ x ∈ pre, p x = false) (hm : p m = true) :
    (pre ++ m :: suf).find? p = some m := by
  induction pre with
  | nil => simpa using List.find?_cons_of_pos suf hm
  | cons a tl ih =>
    have ha : p a = false := hpre a (by simp)
    rw [List.cons_append, List.find?_cons_of_neg _ (by simp [ha])]
    exact ih (fun x hx => hpre x (by simp [hx]))

/-- In a table with pairwise disjoint destination ranges, find? on the
destination guard returns any member rule containing the value. -/
theorem find?_dest_unique (T : List MapLimits) (m : MapLimits) (w : Int)
    (hdisj : DisjointDest T) (hm : m ∈ T) (hw : destContains m w = true) :
    T.find? (fun x => destContains x w) = some m := by
  induction T with
  | nil => simp at hm
  | cons a tl ih =>
    rcases List.pairwise_cons.mp hdisj with ⟨ha, htl⟩
    rcases List.mem_cons.mp hm with rfl | hmtl
    · exact List.find?_cons_of_pos tl hw
    · by_cases haw : destContains a w = true
      · exact absurd ⟨haw, hw⟩ (ha m hmtl w)
      · rw [List.find?_cons_of_neg _ (by simpa using haw)]
        exact ih htl hmtl

/-- mapE distributes over append when both halves succeed. -/
theorem mapE_append (f : α → Except BErr β) (xs ys : List α) (bs cs : List β)
    (hx : mapE f xs = .ok bs) (hy : mapE f ys = .ok cs) :
    mapE f (xs ++ ys) = .ok (bs ++ cs) := by
  induction xs generalizing bs with
  | nil =>
    simp only [mapE] at hx
    cases hx
    simpa using hy
  | cons a tl ih =>
    cases hfa : f a with
    | error e => simp [mapE, hfa] at hx
    | ok b =>
      cases htl : mapE f tl with
      | error e => simp [mapE, hfa, htl] at hx
      | ok bs2 =>
        simp [mapE, hfa, htl] at hx
        subst hx
        simp [List.cons_append, mapE, hfa, ih bs2 htl]

/-- Reversing the input of a successful mapE reverses the output. -/
theorem mapE_reverse_ok (f : α → Except BErr β) (l : List α) (bs : List β)
    (h : mapE f l = .ok bs) : mapE f l.reverse = .ok bs.reverse := by
  induction l generalizing bs with
  | nil =>
    simp only [mapE] at h
    cases h
    simp [mapE]
  | cons a tl ih =>
    cases hfa : f a with
    | error e => simp [mapE, hfa] at h
    | ok b =>
      cases htl : mapE f tl with
      | error e => simp [mapE, hfa, htl] at h
      | ok bs2 =>
        simp [mapE, hfa, htl] at h
        subst h
        rw [List.reverse_cons]
        have hsingle : mapE f [a] = .ok [b] := by simp [mapE, hfa]
        simpa using mapE_append f tl.reverse [a] bs2.reverse [b] (ih bs2 htl) hsingle

/-- A successful scan returns a hit and every skipped candidate misses. -/
theorem scanLoop_some (p : Nat → Bool) (fuel loc L : Nat)
    (h : scanLoop p fuel loc = some L) :
    p L = true ∧ loc ≤ L ∧ ∀ m, loc ≤ m → m < L → p m = false := by
  induction fuel generalizing loc with
  | zero => simp [scanLoop] at h
  | succ f ih =>
    unfold scanLoop at h
    by_cases hp : p loc = true
    · rw [if_pos hp] at h
      cases h
      exact ⟨hp, Nat.le_refl _, fun m h1 h2 => absurd (Nat.lt_of_le_of_lt h1 h2) (Nat.lt_irrefl _)⟩
    · rw [if_neg hp] at h
      obtain ⟨hL, hle, hmin⟩ := ih (loc + 1) h
      refine ⟨hL, by omega, fun m h1 h2 => ?_⟩
      rcases Nat.eq_or_lt_of_le h1 with rfl | hlt
      · exact Bool.not_eq_true _ ▸ (by simpa using hp)
      · exact hmin m hlt h2

/-- With enough fuel, the scan returns the least hit at or after its start. -/
theorem scanLoop_finds (p : Nat → Bool) (L : Nat) (hL : p L = true) :
    ∀ fuel loc, loc ≤ L → L < loc + fuel → (∀ m, loc ≤ m → m < L → p m = false) →
    scanLoop p fuel loc = some L := by
  intro fuel
  induction fuel with
  | zero => intro loc h1 h2 _; omega
  | succ f ih =>
    intro loc h1 h2 hmin
    unfold scanLoop
    rcases Nat.eq_or_lt_of_le h1 with rfl | hlt
    · rw [if_pos hL]
    · rw [if_neg (by simp [hmin loc (Nat.le_refl loc) hlt])]
      exact ih (loc + 1) hlt (by omega) (fun m hm1 hm2 => hmin m (by omega) hm2)

/-- With no hit anywhere, the scan never returns, whatever the fuel. -/
theorem scanLoop_none (p : Nat → Bool) (hnone : ∀ n, p n = false) :
    ∀ fuel loc, scanLoop p fuel loc = none := by
  intro fuel
  induction fuel with
  | zero => intro loc; rfl
  | succ f ih =>
    intro loc
    unfold scanLoop
    rw [if_neg (by simp [hnone loc])]
    exact ih (loc + 1)

/-- If some candidate at or after the start hits within the fuel budget, the
scan returns a value. -/
theorem scanLoop_isSome (p : Nat → Bool) :
    ∀ fuel loc k, k < fuel → p (loc + k) = true →
    ∃ L, scanLoop p fuel loc = some L := by
  intro fuel
  induction fuel with
  | zero => intro loc k hk _; omega
  | succ f ih =>
    intro loc k hk hp
    unfold scanLoop
    by_cases hploc : p loc = true
    · exact ⟨loc, by rw [if_pos hploc]⟩
    · have hk0 : k ≠ 0 := by
        intro h0
        subst h0
        simp at hp
        exact hploc hp
      rw [if_neg hploc]
      have h2 : loc + 1 + (k - 1) = loc + k := by omega
      exact ih (loc + 1) (k - 1) (by omega) (h2 ▸ hp)

/-- Claim C3: the Forward Translator takes the first rule in table order
whose inclusive source range holds the value and returns destination start
plus the offset of the value from the source start; when no rule source range
holds the value it returns the value unchanged. The function is a total Lean
function over Int, so it is pure and total over all integers. -/
theorem claim_C3 (T : List MapLimits) (v : Int) :
    ((∀ m ∈ T, srcContains m v = false) → translate_value T v = v)
    ∧ (∀ pre m suf, T = pre ++ m :: suf → (∀ x ∈ pre, srcContains x v = false) →
        srcContains m v = true →
        translate_value T v = m.destMin + (v - m.srcMin)) := by
  constructor
  · intro h
    unfold translate_value
    have hnone : T.find? (fun m => srcContains m v) = none := by
      rw [List.find?_eq_none]
      intro x hx
      simp [h x hx]
    rw [hnone]
  · intro pre m suf hT hpre hm
    unfold translate_value
    rw [hT, find?_eq_some_of_split _ pre m suf hpre hm]

/-- Witness for C3 at concrete inputs: a value outside the only source range
passes through unchanged, and a value inside the second rule of the overlap
table is shifted by that rule. -/
theorem claim_C3_witness :
    translate_value exGoodT 7 = 7 ∧ translate_value exOverlapT 0 = 50 := by
  constructor
  · exact (claim_C3 exGoodT 7).1 (by decide)
  · have h := (claim_C3 exOverlapT 0).2 [⟨100, 100, 50, 50⟩] ⟨0, 0, 50, 50⟩ [] rfl
      (by decide) (by decide)
    simpa using h

/-- Claim C4: the Reverse Translator takes the first rule in table order
whose inclusive destination range holds the value and returns source start
plus the offset of the value from the destination start; absent a match it
returns the value unchanged. The reverse pipeline builds the tables of the
reversed hardcoded name list, so on a successfully built almanac it threads
the value through the declared-order tables from the last to the first, each
output feeding the next application. -/
theorem claim_C4 :
    (∀ (T : List MapLimits) (v : Int),
      (∀ m ∈ T, destContains m v = false) → reverse_translate T v = v)
    ∧ (∀ (T : List MapLimits) (v : Int) pre m suf, T = pre ++ m :: suf →
        (∀ x ∈ pre, destContains x v = false) → destContains m v = true →
        reverse_translate T v = m.srcMin + (v - m.destMin))
    ∧ (∀ (M : List (List MapLimits)) (w : Int),
        reverse_pipeline M.reverse w = M.foldr (fun T a => reverse_translate T a) w)
    ∧ (∀ (lines : List String) (M : List (List MapLimits)),
        build_maps lines = .ok M → reverse_build lines = .ok M.reverse) := by
  refine ⟨?_, ?_, ?_, ?_⟩
  · intro T v h
    unfold reverse_translate
    have hnone : T.find? (fun m => destContains m v) = none := by
      rw [List.find?_eq_none]
      intro x hx
      simp [h x hx]
    rw [hnone]
  · intro T v pre m suf hT hpre hm
    unfold reverse_translate
    rw [hT, find?_eq_some_of_split _ pre m suf hpre hm]
  · intro M w
    unfold reverse_pipeline
    rw [List.foldl_reverse]
  · intro lines M h
    unfold reverse_build
    unfold build_maps at h
    exact mapE_reverse_ok (build_map lines) map_names M h

/-- Witness for C4 at concrete inputs: identity passthrough outside the only
destination range, first-rule selection on the overlap table, the pipeline
over the reversed table list as a right fold, and the reversed build on a
concrete almanac. -/
theorem claim_C4_witness :
    reverse_translate exGoodT 7 = 7
    ∧ reverse_translate exOverlapT 50 = 100
    ∧ reverse_pipeline [exGoodT, exOverlapT].reverse 50 =
        [exGoodT, exOverlapT].foldr (fun T a => reverse_translate T a) 50
    ∧ reverse_build exLinesR = .ok exMsR.reverse := by
  refine ⟨?_, ?_, ?_, ?_⟩
  · exact claim_C4.1 exGoodT 7 (by decide)
  · have h := claim_C4.2.1 exOverlapT 50 [] ⟨100, 100, 50, 50⟩ [⟨0, 0, 50, 50⟩] rfl
      (by intro x hx; simp at hx) (by decide)
    simpa using h
  · exact claim_C4.2.2.1 [exGoodT, exOverlapT] 50
  · exact claim_C4.2.2.2 exLinesR exMsR rfl

/-- Claim C1: on any almanac whose setup parses, whenever the reverse scan
returns a location it is a hit and every smaller candidate misses, so it is
the least hit; conversely, when a least hit exists the scan returns exactly
it once the fuel exceeds it, modelling the unbounded source loop. -/
theorem claim_C1 (lines : List String) (sr : List (Int × Int))
    (ms : List (List MapLimits)) (h : reverse_setup lines = .ok (sr, ms)) :
    (∀ fuel L, reverse_map_to_min_location lines fuel = .ok (some L) →
       is_hit sr ms L = true ∧ ∀ m, m < L → is_hit sr ms m = false)
    ∧ (∀ L fuel, is_hit sr ms L = true → (∀ m, m < L → is_hit sr ms m = false) →
       L < fuel → reverse_map_to_min_location lines fuel = .ok (some L)) := by
  constructor
  · intro fuel L hrun
    unfold reverse_map_to_min_location at hrun
    simp only [h, Except.ok.injEq] at hrun
    obtain ⟨h1, _, h3⟩ := scanLoop_some _ _ _ _ hrun
    exact ⟨h1, fun m hm => h3 m (Nat.zero_le m) hm⟩
  · intro L fuel h1 h2 h3
    unfold reverse_map_to_min_location
    simp only [h, Except.ok.injEq]
    exact scanLoop_finds (is_hit sr ms) L h1 fuel 0 (Nat.zero_le L) (by omega)
      (fun m _ hm2 => h2 m hm2)

/-- Witness for C1: on the concrete almanac exLinesR (seed range covering
exactly 0, all tables empty) the scan with fuel 1 returns location 0. -/
theorem claim_C1_witness :
    reverse_map_to_min_location exLinesR 1 = .ok (some 0) :=
  (claim_C1 exLinesR [(0, 0)] exMsR rfl).2 0 1 rfl
    (fun m hm => absurd hm (Nat.not_lt_zero m)) (by decide)

/-- Claim C8: on any almanac whose setup parses, when no candidate location
reverse-maps into a seed range the scan returns none for every fuel value —
the model of non-termination of the capless source loop — and when some
candidate hits, some fuel makes the scan return a location. -/
theorem claim_C8 (lines : List String) (sr : List (Int × Int))
    (ms : List (List MapLimits)) (h : reverse_setup lines = .ok (sr, ms)) :
    ((∀ n, is_hit sr ms n = false) →
       ∀ fuel, reverse_map_to_min_location lines fuel = .ok none)
    ∧ (∀ N, is_hit sr ms N = true →
       ∃ fuel L, reverse_map_to_min_location lines fuel = .ok (some L)) := by
  constructor
  · intro hnone fuel
    unfold reverse_map_to_min_location
    simp only [h, Except.ok.injEq]
    exact scanLoop_none (is_hit sr ms) hnone fuel 0
  · intro N hN
    obtain ⟨L, hL⟩ := scanLoop_isSome (is_hit sr ms) (N + 1) 0 N (by omega) (by simpa using hN)
    refine ⟨N + 1, L, ?_⟩
    unfold reverse_map_to_min_location
    simp only [h, Except.ok.injEq]
    exact hL

/-- Witness for C8: on exLinesR, candidate 0 hits, so some fuel returns a
location. -/
theorem claim_C8_witness :
    ∃ fuel L, reverse_map_to_min_location exLinesR fuel = .ok (some L) :=
  (claim_C8 exLinesR [(0, 0)] exMsR rfl).2 0 rfl

/-- Counterexample to C2 as stated: in the well-formed table exOverlapT the
value 0 lies in the source range of the second rule, yet the reverse image of
its forward image is 100, not 0, because both rules share the destination
range [50, 50] and the reverse lookup picks the first of them. -/
theorem claim_C2_counterexample :
    (∃ m ∈ exOverlapT, srcContains m 0 = true)
    ∧ (∀ m ∈ exOverlapT, m.destMax - m.destMin = m.srcMax - m.srcMin)
    ∧ reverse_translate exOverlapT (translate_value exOverlapT 0) = 100 := by
  refine ⟨⟨⟨0, 0, 50, 50⟩, by decide, by decide⟩, by decide, by decide⟩

/-- Claim C2 amended: for a well-formed table (each rule moves equally long
source and destination ranges, as every parsed table does) whose destination
ranges are pairwise disjoint, the reverse translation of the forward
translation of v is v whenever v lies in some rule source range; and when v
is outside every source range and outside every destination range both
translators pass v through, giving the same identity. -/
theorem claim_C2 (T : List MapLimits) (v : Int)
    (hwf : WellFormedTable T) (hdisj : DisjointDest T) :
    ((∃ m ∈ T, srcContains m v = true) →
       reverse_translate T (translate_value T v) = v)
    ∧ ((∀ m ∈ T, srcContains m v = false) → (∀ m ∈ T, destContains m v = false) →
       reverse_translate T (translate_value T v) = v) := by
  constructor
  · intro hex
    obtain ⟨m0, hm0T, hm0⟩ := hex
    have hfind : ∃ m, T.find? (fun m => srcContains m v) = some m := by
      cases hf : T.find? (fun m => srcContains m v) with
      | none =>
        rw [List.find?_eq_none] at hf
        exact absurd hm0 (by simpa using hf m0 hm0T)
      | some m => exact ⟨m, rfl⟩
    obtain ⟨m, hfind⟩ := hfind
    have hmT : m ∈ T := List.mem_of_find?_eq_some hfind
    have hmv : srcContains m v = true := by
      have hp := List.find?_some hfind
      simpa using hp
    have hval : translate_value T v = m.destMin + (v - m.srcMin) := by
      unfold translate_value
      rw [hfind]
    have hw : destContains m (m.destMin + (v - m.srcMin)) = true := by
      have hlen := hwf m hmT
      simp only [srcContains, Bool.and_eq_true, decide_eq_true_eq] at hmv
      simp only [destContains, Bool.and_eq_true, decide_eq_true_eq]
      omega
    have hfind2 : T.find? (fun x => destContains x (m.destMin + (v - m.srcMin))) = some m :=
      find?_dest_unique T m _ hdisj hmT hw
    rw [hval]
    unfold reverse_translate
    rw [hfind2]
    ring
  · intro hsrc hdest
    have hv : translate_value T v = v := by
      unfold translate_value
      have hnone : T.find? (fun m => srcContains m v) = none := by
        rw [List.find?_eq_none]
        intro x hx
        simp [hsrc x hx]
      rw [hnone]
    rw [hv]
    unfold reverse_translate
    have hnone : T.find? (fun m => destContains m v) = none := by
      rw [List.find?_eq_none]
      intro x hx
      simp [hdest x hx]
    rw [hnone]

/-- Witness for C2 amended, on the one-rule table exGoodT: the round trip
fixes the in-range value 2 and the out-of-range value 100. -/
theorem claim_C2_witness :
    reverse_translate exGoodT (translate_value exGoodT 2) = 2
    ∧ reverse_translate exGoodT (translate_value exGoodT 100) = 100 := by
  have hwf : WellFormedTable exGoodT := by
    intro m hm
    simp only [exGoodT, List.mem_singleton] at hm
    subst hm
    rfl
  have hdisj : DisjointDest exGoodT := by
    unfold DisjointDest exGoodT
    exact List.pairwise_singleton _ _
  constructor
  · exact (claim_C2 exGoodT 2 hwf hdisj).1 ⟨⟨0, 4, 10, 14⟩, by decide, by decide⟩
  · exact (claim_C2 exGoodT 100 hwf hdisj).2 (by decide) (by decide)

/-- A successful rule loop returns exactly one rule per line of the scanned
region, in line order, and every scanned line holds exactly three numbers. -/
theorem parseRules_ok (L : List String) (ms : List MapLimits)
    (h : parseRules L = .ok ms) :
    ms = mkRuleList (L.takeWhile (fun l => !(l == "")))
    ∧ ∀ l ∈ L.takeWhile (fun l => !(l == "")), (extractInts l.data none).length = 3 := by
  induction L generalizing ms with
  | nil =>
    simp only [parseRules] at h
    cases h
    simp [mkRuleList]
  | cons l rest ih =>
    by_cases hl : l = ""
    · subst hl
      simp only [parseRules, if_pos rfl] at h
      cases h
      simp [mkRuleList]
    · cases hE : extractInts l.data none with
      | nil => simp [parseRules, hl, hE] at h
      | cons d tl1 =>
        cases tl1 with
        | nil => simp [parseRules, hl, hE] at h
        | cons s tl2 =>
          cases tl2 with
          | nil => simp [parseRules, hl, hE] at h
          | cons n tl3 =>
            cases tl3 with
            | cons x tl4 => simp [parseRules, hl, hE] at h
            | nil =>
              simp only [parseRules, if_neg hl, hE] at h
              cases hrec : parseRules rest with
              | error e => rw [hrec] at h; cases h
              | ok ms2 =>
                rw [hrec] at h
                cases h
                obtain ⟨ih1, ih2⟩ := ih ms2 hrec
                constructor
                · rw [List.takeWhile_cons, if_pos (by simp [hl])]
                  simp [mkRuleList, mkRule, hE, ih1]
                · intro l2 hl2
                  rw [List.takeWhile_cons, if_pos (by simp [hl])] at hl2
                  rcases List.mem_cons.mp hl2 with rfl | hmem
                  · simp [hE]
                  · exact ih2 l2 hmem

/-- When every line of the scanned region holds exactly three numbers, the
rule loop succeeds with exactly those rules. -/
theorem parseRules_complete (L : List String)
    (hall : ∀ l ∈ L.takeWhile (fun l => !(l == "")), (extractInts l.data none).length = 3) :
    parseRules L = .ok (mkRuleList (L.takeWhile (fun l => !(l == "")))) := by
  induction L with
  | nil => simp [parseRules, mkRuleList]
  | cons l rest ih =>
    by_cases hl : l = ""
    · subst hl
      simp [parseRules, mkRuleList]
    · have hmem : l ∈ (l :: rest).takeWhile (fun l => !(l == "")) := by
        rw [List.takeWhile_cons, if_pos (by simp [hl])]
        simp
      have h3 := hall l hmem
      obtain ⟨d, s, n, hE⟩ := List.length_eq_three.mp h3
      have hrest : ∀ l2 ∈ rest.takeWhile (fun l => !(l == "")), (extractInts l2.data none).length = 3 := by
        intro l2 hl2
        refine hall l2 ?_
        rw [List.takeWhile_cons, if_pos (by simp [hl])]
        exact List.mem_cons_of_mem l hl2
      rw [List.takeWhile_cons, if_pos (by simp [hl])]
      simp [parseRules, hl, hE, ih hrest, mkRuleList, mkRule]

/-- The rule loop raises the malformed-rule error exactly when some line of
the scanned region does not hold exactly three numbers. -/
theorem parseRules_malformed (L : List String) :
    parseRules L = .error .malformed ↔
    ∃ l ∈ L.takeWhile (fun l => !(l == "")), (extractInts l.data none).length ≠ 3 := by
  induction L with
  | nil => simp [parseRules]
  | cons l rest ih =>
    by_cases hl : l = ""
    · subst hl
      simp [parseRules]
    · rw [List.takeWhile_cons, if_pos (by simp [hl])]
      by_cases h3 : (extractInts l.data none).length = 3
      · obtain ⟨d, s, n, hE⟩ := List.length_eq_three.mp h3
        constructor
        · intro h
          simp only [parseRules, if_neg hl, hE] at h
          cases hrec : parseRules rest with
          | error e =>
            rw [hrec] at h
            cases h
            obtain ⟨l2, hmem, hbad⟩ := ih.mp hrec
            exact ⟨l2, List.mem_cons_of_mem l hmem, hbad⟩
          | ok ms2 => rw [hrec] at h; cases h
        · intro hex
          obtain ⟨l2, hl2, hbad⟩ := hex
          rcases List.mem_cons.mp hl2 with rfl | hmem
          · exact absurd h3 hbad
          · have hrec := ih.mpr ⟨l2, hmem, hbad⟩
            simp [parseRules, hl, hE, hrec]
      · constructor
        · intro _
          exact ⟨l, List.mem_cons_self l _, h3⟩
        · intro _
          have hshape : ∀ d s n, extractInts l.data none ≠ [d, s, n] := by
            intro d s n hcontra
            exact h3 (by rw [hcontra]; rfl)
          cases hE : extractInts l.data none with
          | nil => simp [parseRules, hl, hE]
          | cons d tl1 =>
            cases tl1 with
            | nil => simp [parseRules, hl, hE]
            | cons s tl2 =>
              cases tl2 with
              | nil => simp [parseRules, hl, hE]
              | cons n tl3 =>
                cases tl3 with
                | nil => exact absurd hE (hshape d s n)
                | cons x tl4 => simp [parseRules, hl, hE]

/-- The rule loop never raises the missing-header error. -/
theorem parseRules_ne_notFound (L : List String) :
    parseRules L ≠ .error .notFound := by
  induction L with
  | nil => simp [parseRules]
  | cons l rest ih =>
    by_cases hl : l = ""
    · subst hl; simp [parseRules]
    · cases hE : extractInts l.data none with
      | nil => simp [parseRules, hl, hE]
      | cons d tl1 =>
        cases tl1 with
        | nil => simp [parseRules, hl, hE]
        | cons s tl2 =>
          cases tl2 with
          | nil => simp [parseRules, hl, hE]
          | cons n tl3 =>
            cases tl3 with
            | cons x tl4 => simp [parseRules, hl, hE]
            | nil =>
              simp only [parseRules, if_neg hl, hE]
              cases hrec : parseRules rest with
              | error e =>
                intro hcontra
                cases hcontra
                exact ih hrec
              | ok ms2 => simp

/-- The first-index search misses exactly when the name is on no line. -/
theorem indexOfLine_eq_none (name : String) (lines : List String) :
    indexOfLine name lines = none ↔ ¬ name ∈ lines := by
  induction lines with
  | nil => simp [indexOfLine]
  | cons l rest ih =>
    by_cases hl : l = name
    · subst hl
      simp [indexOfLine]
    · simp [indexOfLine, hl, Option.map_eq_none, ih, Ne.symm hl]

/-- The builder on a found header, re-expressed through the drop of the lines
after it. -/
theorem build_map_found (lines : List String) (name : String) (i : Nat)
    (hidx : indexOfLine name lines = some i) :
    build_map lines name =
      match lines.drop (i + 1) with
      | [] => .error .indexError
      | l :: rest => parseRules (l :: rest) := by
  unfold build_map
  simp only [hidx]

/-- Claim C6: with the header first found at index i, a successful build
returns exactly one rule per line of the region after the header up to the
first blank line or end of input, in line order — each line parsed as three
numbers (dest, src, len) and turned into the rule with source start src,
inclusive source end src + len - 1 and destination start dest — and no other
rules; conversely, when at least one line follows the header and every region
line holds exactly three numbers, the build succeeds with exactly those
rules. -/
theorem claim_C6 (lines : List String) (name : String) (i : Nat)
    (hidx : indexOfLine name lines = some i) :
    (∀ ms, build_map lines name = .ok ms →
       ms = mkRuleList (ruleRegion lines i)
       ∧ ∀ l ∈ ruleRegion lines i, (extractInts l.data none).length = 3)
    ∧ (lines.drop (i + 1) ≠ [] →
       (∀ l ∈ ruleRegion lines i, (extractInts l.data none).length = 3) →
       build_map lines name = .ok (mkRuleList (ruleRegion lines i))) := by
  rw [build_map_found lines name i hidx]
  cases hdrop : lines.drop (i + 1) with
  | nil =>
    constructor
    · intro ms h
      cases h
    · intro hne _
      exact absurd rfl hne
  | cons l rest =>
    have hregion : ruleRegion lines i = (l :: rest).takeWhile (fun l => !(l == "")) := by
      unfold ruleRegion
      rw [hdrop]
    constructor
    · intro ms h
      rw [hregion]
      exact parseRules_ok (l :: rest) ms h
    · intro _ hall
      rw [hregion] at hall ⊢
      exact parseRules_complete (l :: rest) hall

/-- Witness for C6 on a concrete three-line input: one rule line between the
header and the blank line yields exactly the rule (src 2, src end 4,
dest 1, dest end 3). -/
theorem claim_C6_witness :
    build_map ["m:", "1 2 3", ""] "m:" = .ok [⟨2, 4, 1, 3⟩] := by
  have h := (claim_C6 ["m:", "1 2 3", ""] "m:" 0 rfl).2 (by decide) (by decide)
  exact h

/-- Claim C7: the builder raises the missing-header error exactly when no
line equals the table header, and raises the malformed-rule error exactly
when, the header being first found at some index, some line of the region
before the terminating blank line (or end of input) does not hold exactly
three numbers. The Except result carries no partial table in either case. -/
theorem claim_C7 (lines : List String) (name : String) :
    (build_map lines name = .error .notFound ↔ ¬ name ∈ lines)
    ∧ (build_map lines name = .error .malformed ↔
        ∃ i, indexOfLine name lines = some i ∧
          ∃ l ∈ ruleRegion lines i, (extractInts l.data none).length ≠ 3) := by
  constructor
  · cases hidx : indexOfLine name lines with
    | none =>
      have hb : build_map lines name = .error .notFound := by
        unfold build_map
        rw [hidx]
      rw [hb]
      simp [(indexOfLine_eq_none name lines).mp hidx]
    | some i =>
      have hmem : name ∈ lines := by
        by_contra hmem
        rw [← indexOfLine_eq_none name lines] at hmem
        rw [hmem] at hidx
        cases hidx
      rw [build_map_found lines name i hidx]
      cases hdrop : lines.drop (i + 1) with
      | nil => simp [hmem]
      | cons l rest =>
        constructor
        · intro hcontra
          exact absurd hcontra (parseRules_ne_notFound (l :: rest))
        · intro hnmem
          exact absurd hmem hnmem
  · cases hidx : indexOfLine name lines with
    | none =>
      have hb : build_map lines name = .error .notFound := by
        unfold build_map
        rw [hidx]
      rw [hb]
      simp [hidx]
    | some i =>
      rw [build_map_found lines name i hidx]
      cases hdrop : lines.drop (i + 1) with
      | nil =>
        have hregion : ruleRegion lines i = [] := by
          unfold ruleRegion
          rw [hdrop]
          rfl
        simp [hidx, hregion]
      | cons l rest =>
        have hregion : ruleRegion lines i = (l :: rest).takeWhile (fun l => !(l == "")) := by
          unfold ruleRegion
          rw [hdrop]
        rw [parseRules_malformed (l :: rest)]
        constructor
        · intro h
          exact ⟨i, rfl, by rw [hregion]; exact h⟩
        · intro h
          obtain ⟨i2, hi2, h⟩ := h
          injection hi2 with hi2e
          subst hi2e
          rw [hregion] at h
          exact h

/-- Claim C10: when the first line equal to the header is the last line of
the input, the builder fails with the index error of running one past the end
of the line list instead of returning an empty table. -/
theorem claim_C10 (lines : List String) (name : String) (i : Nat)
    (hidx : indexOfLine name lines = some i) (hlast : lines.length = i + 1) :
    build_map lines name = .error .indexError := by
  rw [build_map_found lines name i hidx]
  have hdrop : lines.drop (i + 1) = [] := by
    rw [← hlast]
    exact List.drop_length lines
  rw [hdrop]

/-- Witness for C10: an input whose single line is the header makes the
builder fail with the index error. -/
theorem claim_C10_witness :
    build_map ["m:"] "m:" = .error .indexError :=
  claim_C10 ["m:"] "m:" 0 rfl rfl

/-- Counterexample to C5 as stated: on the almanac exLines5, whose text
declares soil-to-fertilizer before seed-to-soil, the code computes location
200 for seed 0 while the left-to-right composition over the tables as ordered
in the input text gives 100: the code follows its hardcoded table order, not
the text order. -/
theorem claim_C5_counterexample :
    get_seed_location_lookup exLines5 = .ok [(0, 200)]
    ∧ spec_text_order_location exLines5 0 = .ok 100 :=
  ⟨rfl, rfl⟩

/-- Claim C5 amended: the forward pipeline applies the Forward Translator
once per table in the fixed hardcoded order seed-to-soil, soil-to-fertilizer,
fertilizer-to-water, water-to-light, light-to-temperature,
temperature-to-humidity, humidity-to-location, threading each output into the
next; the location of each seed is that sevenfold left-to-right composition,
whatever order the tables appear in the almanac text. -/
theorem claim_C5 (l0 : String) (rest : List String)
    (t1 t2 t3 t4 t5 t6 t7 : List MapLimits)
    (h1 : build_map (l0 :: rest) "seed-to-soil map:" = .ok t1)
    (h2 : build_map (l0 :: rest) "soil-to-fertilizer map:" = .ok t2)
    (h3 : build_map (l0 :: rest) "fertilizer-to-water map:" = .ok t3)
    (h4 : build_map (l0 :: rest) "water-to-light map:" = .ok t4)
    (h5 : build_map (l0 :: rest) "light-to-temperature map:" = .ok t5)
    (h6 : build_map (l0 :: rest) "temperature-to-humidity map:" = .ok t6)
    (h7 : build_map (l0 :: rest) "humidity-to-location map:" = .ok t7) :
    get_seed_location_lookup (l0 :: rest) =
      .ok ((get_seeds l0).map (fun s =>
        (s, translate_value t7 (translate_value t6 (translate_value t5
              (translate_value t4 (translate_value t3 (translate_value t2
                (translate_value t1 (Int.ofNat s)))))))))) := by
  unfold get_seed_location_lookup build_maps map_names
  simp only [mapE, h1, h2, h3, h4, h5, h6, h7]
  simp [forward_pipeline]

/-- Witness for C5 amended on the concrete almanac exLines5: the builds of
the seven tables succeed and the lookup equals the sevenfold composition,
which evaluates to location 200 for seed 0. -/
theorem claim_C5_witness :
    get_seed_location_lookup exLines5 = .ok [(0, 200)] := by
  have h := claim_C5 "seeds: 0"
    ["", "soil-to-fertilizer map:", "200 100 1", "", "seed-to-soil map:", "100 0 1", "",
     "fertilizer-to-water map:", "", "water-to-light map:", "", "light-to-temperature map:", "",
     "temperature-to-humidity map:", "", "humidity-to-location map:", ""]
    [⟨0, 0, 100, 100⟩] [⟨100, 100, 200, 200⟩] [] [] [] [] []
    rfl rfl rfl rfl rfl rfl rfl
  exact h.trans (by rfl)

/-- The pairing loop in both of its outcomes: an odd-length number list
raises the index error of the unpaired trailing number, an even-length list
pairs consecutive numbers into inclusive intervals. -/
theorem pairUp_spec : ∀ L : List Nat,
    (L.length % 2 = 1 → pairUp L = .error .indexError)
    ∧ (L.length % 2 = 0 → pairUp L = .ok (pairRanges L))
  | [] => ⟨fun h => by simp at h, fun _ => rfl⟩
  | [a] => ⟨fun _ => rfl, fun h => by simp at h⟩
  | a :: b :: rest => by
    obtain ⟨ih1, ih2⟩ := pairUp_spec rest
    constructor
    · intro h
      have hr : rest.length % 2 = 1 := by
        simp only [List.length_cons] at h
        omega
      simp [pairUp, ih1 hr]
    · intro h
      have hr : rest.length % 2 = 0 := by
        simp only [List.length_cons] at h
        omega
      simp [pairUp, ih2 hr, pairRanges]

/-- Claim C9: a seeds line holding an odd count of numbers makes
get_seed_range raise the index error of the unpaired trailing number rather
than dropping it; a line with an even count succeeds, pairing consecutive
numbers (start, length) into the inclusive intervals
[start, start + length - 1]. -/
theorem claim_C9 (line : String) :
    ((get_seeds line).length % 2 = 1 → get_seed_range line = .error .indexError)
    ∧ ((get_seeds line).length % 2 = 0 →
        get_seed_range line = .ok (pairRanges (get_seeds line))) := by
  unfold get_seed_range
  exact pairUp_spec (get_seeds line)

/-- Witness for C9: a three-number seeds line raises the index error; the
four-number seeds line of the puzzle example yields the two inclusive ranges
[79, 92] and [55, 67]. -/
theorem claim_C9_witness :
    get_seed_range "seeds: 1 2 3" = .error .indexError
    ∧ get_seed_range "seeds: 79 14 55 13" = .ok [(79, 92), (55, 67)] := by
  constructor
  · exact (claim_C9 "seeds: 1 2 3").1 (by decide)
  · exact ((claim_C9 "seeds: 79 14 55 13").2 (by decide)).trans (by rfl)

/-- Witness for C7: a header absent from the input raises the missing-header
error, and a rule line holding two numbers raises the malformed-rule
error. -/
theorem claim_C7_witness :
    build_map ["m:"] "x" = .error .notFound
    ∧ build_map ["m:", "1 2", ""] "m:" = .error .malformed := by
  constructor
  · exact (claim_C7 ["m:"] "x").1.mpr (by decide)
  · exact (claim_C7 ["m:", "1 2", ""] "m:").2.mpr ⟨0, rfl, "1 2", by decide, by decide⟩
